import Mathlib

/-!
Verification of the untis-calendar pipeline (`untis_to_ics.py`,
`untis_common.py`, `untis_to_caldav.py`) against its specification.

The Python functions are shallowly embedded as executable Lean
definitions: dates follow Python's `datetime.date` (proleptic Gregorian
calendar, years 1..9999), timestamps are minutes as `Int`, strings are
Lean `String`s, fallible code returns `Option`/`Except`.
-/

namespace UntisCal

/-- Model of a Python `datetime.date`: year, month, day fields. -/
structure PyDate where
  y : Nat
  m : Nat
  d : Nat
deriving DecidableEq

/-- Gregorian leap-year rule as implemented by Python `datetime`. -/
def isLeap (y : Nat) : Bool :=
  (y % 4 == 0 && y % 100 != 0) || y % 400 == 0

/-- Length of month `m` in year `y` per Python `datetime`
(0 for the out-of-range month 0, which keeps the cumulative sum below
well behaved; validity is checked separately). -/
def monthLength (y m : Nat) : Nat :=
  if m = 0 then 0
  else if m = 2 then (if isLeap y then 29 else 28)
  else if m = 4 ∨ m = 6 ∨ m = 9 ∨ m = 11 then 30
  else 31

/-- Days in year `y` before the first of month `m`
(Python `datetime._days_before_month`). -/
def daysBeforeMonth (y : Nat) : Nat → Nat
  | 0 => 0
  | m + 1 => daysBeforeMonth y m + monthLength y m

/-- Days before January 1 of year `y` (Python `datetime._days_before_year`). -/
def daysBeforeYear (y : Nat) : Nat :=
  365 * (y - 1) + (y - 1) / 4 - (y - 1) / 100 + (y - 1) / 400

/-- Python `date.toordinal()`: day 1 is January 1 of year 1. -/
def toOrdinal (x : PyDate) : Nat :=
  daysBeforeYear x.y + daysBeforeMonth x.y x.m + x.d

/-- The argument check of the Python `date` constructor (`MINYEAR = 1`,
`MAXYEAR = 9999`); an out-of-range triple raises `ValueError`. -/
def isValidDate (y m d : Nat) : Bool :=
  1 ≤ y && y ≤ 9999 && 1 ≤ m && m ≤ 12 && 1 ≤ d && d ≤ monthLength y m

/-- Validity of a `PyDate` value. -/
def PyDate.valid (x : PyDate) : Bool := isValidDate x.y x.m x.d

/-- Successor day in the proleptic Gregorian calendar. -/
def nextDay (x : PyDate) : PyDate :=
  if x.d < monthLength x.y x.m then ⟨x.y, x.m, x.d + 1⟩
  else if x.m < 12 then ⟨x.y, x.m + 1, 1⟩
  else ⟨x.y + 1, 1, 1⟩

/-- Python `base_day + timedelta(days = n)`. -/
def addDays (n : Nat) (x : PyDate) : PyDate := nextDay^[n] x

/-- Python `date.weekday()`: Monday = 0.  Ordinal day 1 (0001-01-01) is a
Monday, so the weekday is `(toordinal + 6) % 7`. -/
def pyWeekday (x : PyDate) : Nat := (toOrdinal x + 6) % 7

/-- Python date comparison `<` (lexicographic on year, month, day). -/
def dateLt (a b : PyDate) : Bool :=
  a.y < b.y || (a.y == b.y && (a.m < b.m || (a.m == b.m && a.d < b.d)))

/-- Python date comparison `<=`. -/
def dateLe (a b : PyDate) : Bool := dateLt a b || a == b

/-- Zero-pad a number to two digits. -/
def pad2 (n : Nat) : String := if n < 10 then "0" ++ toString n else toString n

/-- Zero-pad a number to four digits. -/
def pad4 (n : Nat) : String :=
  if n < 10 then "000" ++ toString n
  else if n < 100 then "00" ++ toString n
  else if n < 1000 then "0" ++ toString n
  else toString n

/-- Python `date.isoformat()`: `YYYY-MM-DD`. -/
def PyDate.isoformat (x : PyDate) : String :=
  pad4 x.y ++ "-" ++ pad2 x.m ++ "-" ++ pad2 x.d

/-! ## Interval merge engine (`merge_into_blocks`, `untis_to_ics.py`) -/

/-- A lesson time interval `(begin, end)`.  Timestamps are minutes as
`Int`; the Python code compares `datetime` differences against
`timedelta(minutes = max_gap_min)`, which this mirrors exactly. -/
abbrev Interval := Int × Int

/-- The sort key of `sorted(intervals, key = lambda x: x[0])`. -/
def beginLe (a b : Interval) : Prop := a.1 ≤ b.1

instance : DecidableRel beginLe := fun a b => Int.decLe a.1 b.1

instance : IsTotal Interval beginLe := ⟨fun a b => Int.le_total a.1 b.1⟩

instance : IsTrans Interval beginLe := ⟨fun _ _ _ h1 h2 => le_trans h1 h2⟩

/-- The loop of `merge_into_blocks`: `last` is the block currently being
grown (Python `merged[-1]`); an interval within `g` of its end extends it
(`merged[-1][1] = e` when `e > last_e`), otherwise a new block starts. -/
def mergeLoop (g : Int) : Interval → List Interval → List Interval
  | last, [] => [last]
  | last, (b, e) :: rest =>
    if b - last.2 ≤ g then
      mergeLoop g (last.1, if last.2 < e then e else last.2) rest
    else
      last :: mergeLoop g (b, e) rest

/-- The loop of `merge_into_blocks` run on an already sorted list:
`merged = [list(intervals[0])]` then the fold, or `[]` for no input. -/
def runMerge (g : Int) : List Interval → List Interval
  | [] => []
  | x :: rest => mergeLoop g x rest

/-- `merge_into_blocks(intervals, max_gap_min)` from `untis_to_ics.py`:
sort by begin time, then fold intervals into blocks, merging when the gap
to the previous block end is at most `max_gap_min` (inclusive).
`insertionSort` with the non-strict key `beginLe` is stable, like
Python's `sorted`, so it computes the same list. -/
def merge_into_blocks (intervals : List Interval) (max_gap_min : Int) : List Interval :=
  runMerge max_gap_min (intervals.insertionSort beginLe)

/-! ## Text heuristics (`untis_to_ics.py`) -/

/-- Python `str.lower` (ASCII case folding; the non-ASCII letters in the
keyword sets are already lowercase in the source). -/
def pyLower (s : String) : String := String.mk (s.data.map Char.toLower)

/-- Python `str.upper` (ASCII case folding). -/
def pyUpper (s : String) : String := String.mk (s.data.map Char.toUpper)

/-- Does `cs` start with `pat`? -/
def startsWithChars : List Char → List Char → Bool
  | [], _ => true
  | _ :: _, [] => false
  | a :: as, b :: bs => a == b && startsWithChars as bs

/-- Does `cs` contain `pat` as a contiguous run? -/
def containsChars (pat : List Char) : List Char → Bool
  | [] => startsWithChars pat []
  | c :: rest => startsWithChars pat (c :: rest) || containsChars pat rest

/-- Python substring containment `needle in hay`. -/
def pySubstr (needle hay : String) : Bool := containsChars needle.toList hay.toList

/-- `EXAM_KEYWORDS` from `untis_to_ics.py`. -/
def EXAM_KEYWORDS : List String :=
  ["prüfung", "klausur", "arbeit", "test", "leistungskontrolle", "ex", "exam", "ka", "lk"]

/-- `HOMEWORK_HINTS` from `untis_to_ics.py`. -/
def HOMEWORK_HINTS : List String :=
  ["hausaufgabe", "ha", "aufgabe", "vokabel", "übung", "uebung", "arbeitsblatt", "abgabe"]

/-- `WEEKDAYS_DE` from `untis_to_ics.py`, in dict insertion order. -/
def WEEKDAYS_DE : List (String × Nat) :=
  [("montag", 0), ("dienstag", 1), ("mittwoch", 2), ("donnerstag", 3),
   ("freitag", 4), ("samstag", 5), ("sonntag", 6)]

/-- `contains_homework(text)` from `untis_to_ics.py`. -/
def contains_homework (text : String) : Bool :=
  if text = "" then false
  else
    let low := pyLower text
    HOMEWORK_HINTS.any (fun h => pySubstr h low) || pySubstr "bis " low

/-- `detect_exam(text)` from `untis_to_ics.py`. -/
def detect_exam (text : String) : Bool :=
  if text = "" then false
  else
    let low := pyLower text
    EXAM_KEYWORDS.any (fun k => pySubstr k low)

/-! ## The two date regexes of `untis_to_ics.py`

`DATE_DDMMYYYY = \b(\d{1,2})\.(\d{1,2})\.(\d{4})\b` and
`DATE_DDMM = \b(\d{1,2})\.(\d{1,2})\b`, with `re.search` semantics:
leftmost match, greedy groups (two digits preferred over one). -/

/-- Regex `\w` (the notes at hand contain only ASCII word characters). -/
def isWordChar (c : Char) : Bool := c.isAlphanum || c == '_'

/-- `\b` in front of a digit: no previous character, or a non-word one. -/
def boundaryBefore (prev : Option Char) : Bool :=
  match prev with
  | none => true
  | some c => !isWordChar c

/-- `\b` after a digit: end of input, or a non-word character follows. -/
def boundaryAfter (rest : List Char) : Bool :=
  match rest with
  | [] => true
  | c :: _ => !isWordChar c

/-- Take exactly `k` leading digits, returning them and the rest. -/
def grabDigits : Nat → List Char → Option (List Char × List Char)
  | 0, cs => some ([], cs)
  | _ + 1, [] => none
  | k + 1, c :: cs =>
    if c.isDigit then
      match grabDigits k cs with
      | some (ds, rest) => some (c :: ds, rest)
      | none => none
    else none

/-- Numeric value of a digit string (Python `int`). -/
def digitsVal (ds : List Char) : Nat :=
  ds.foldl (fun acc c => 10 * acc + (c.toNat - 48)) 0

/-- Try `(\d{l1})\.(\d{l2})\b` at the front of `cs`. -/
def tryDDMM (l1 l2 : Nat) (cs : List Char) : Option (Nat × Nat) :=
  match grabDigits l1 cs with
  | none => none
  | some (ds1, rest1) =>
    match rest1 with
    | '.' :: rest2 =>
      match grabDigits l2 rest2 with
      | none => none
      | some (ds2, rest3) =>
        if boundaryAfter rest3 then some (digitsVal ds1, digitsVal ds2) else none
    | _ => none

/-- Match `DATE_DDMM` anchored at the current position (greedy order:
two digits before one, first group before second). -/
def matchDDMMAt (prev : Option Char) (cs : List Char) : Option (Nat × Nat) :=
  if boundaryBefore prev then
    match tryDDMM 2 2 cs with
    | some r => some r
    | none =>
      match tryDDMM 2 1 cs with
      | some r => some r
      | none =>
        match tryDDMM 1 2 cs with
        | some r => some r
        | none => tryDDMM 1 1 cs
  else none

/-- Scan left to right for the first `DATE_DDMM` match. -/
def searchDDMMAux (prev : Option Char) : List Char → Option (Nat × Nat)
  | [] => none
  | c :: rest =>
    match matchDDMMAt prev (c :: rest) with
    | some r => some r
    | none => searchDDMMAux (some c) rest

/-- `DATE_DDMM.search(t)`: first `\b(\d{1,2})\.(\d{1,2})\b` match. -/
def searchDDMM (s : String) : Option (Nat × Nat) := searchDDMMAux none s.toList

/-- Try `(\d{l1})\.(\d{l2})\.(\d{4})\b` at the front of `cs`. -/
def tryDDMMYYYY (l1 l2 : Nat) (cs : List Char) : Option (Nat × Nat × Nat) :=
  match grabDigits l1 cs with
  | none => none
  | some (ds1, rest1) =>
    match rest1 with
    | '.' :: rest2 =>
      match grabDigits l2 rest2 with
      | none => none
      | some (ds2, rest3) =>
        match rest3 with
        | '.' :: rest4 =>
          match grabDigits 4 rest4 with
          | none => none
          | some (ds3, rest5) =>
            if boundaryAfter rest5 then
              some (digitsVal ds1, digitsVal ds2, digitsVal ds3)
            else none
        | _ => none
    | _ => none

/-- Match `DATE_DDMMYYYY` anchored at the current position. -/
def matchDDMMYYYYAt (prev : Option Char) (cs : List Char) : Option (Nat × Nat × Nat) :=
  if boundaryBefore prev then
    match tryDDMMYYYY 2 2 cs with
    | some r => some r
    | none =>
      match tryDDMMYYYY 2 1 cs with
      | some r => some r
      | none =>
        match tryDDMMYYYY 1 2 cs with
        | some r => some r
        | none => tryDDMMYYYY 1 1 cs
  else none

/-- Scan left to right for the first `DATE_DDMMYYYY` match. -/
def searchDDMMYYYYAux (prev : Option Char) : List Char → Option (Nat × Nat × Nat)
  | [] => none
  | c :: rest =>
    match matchDDMMYYYYAt prev (c :: rest) with
    | some r => some r
    | none => searchDDMMYYYYAux (some c) rest

/-- `DATE_DDMMYYYY.search(t)`. -/
def searchDDMMYYYY (s : String) : Option (Nat × Nat × Nat) :=
  searchDDMMYYYYAux none s.toList

/-! ## Due-date inference (`parse_due_date`, `untis_to_ics.py`) -/

/-- The weekday scan of `parse_due_date`: first `WEEKDAYS_DE` entry whose
name occurs in the lowered text (Python dicts preserve insertion order). -/
def findWeekday (t : String) : Option Nat :=
  WEEKDAYS_DE.findSome? (fun wi => if pySubstr wi.1 t then some wi.2 else none)

/-- `d = (idx - base_day.weekday()) % 7; d = 7 if d == 0 else d`
(Python `%` on ints returns a nonnegative remainder for modulus 7). -/
def weekdayOffset (idx : Nat) (base_day : PyDate) : Nat :=
  let d := (((idx : Int) - (pyWeekday base_day : Int)) % 7).toNat
  if d = 0 then 7 else d

/-- The `DATE_DDMM` branch of `parse_due_date`: assume the base day's
year, roll a strictly earlier candidate into the next year; a
`ValueError` from the `date` constructor falls through to `None`. -/
def ddmmFallback (t : String) (base_day : PyDate) : Option PyDate :=
  match searchDDMM t with
  | some (d, mth) =>
    if isValidDate base_day.y mth d then
      let cand : PyDate := ⟨base_day.y, mth, d⟩
      if dateLt cand base_day then
        if isValidDate (base_day.y + 1) mth d then some ⟨base_day.y + 1, mth, d⟩
        else none
      else some cand
    else none
  | none => none

/-- `parse_due_date(text, base_day)` from `untis_to_ics.py`; `none`
models Python `None`. -/
def parse_due_date (text : String) (base_day : PyDate) : Option PyDate :=
  if text = "" then none
  else
    let t := pyLower text
    if pySubstr "heute" t then some base_day
    else if pySubstr "morgen" t then some (addDays 1 base_day)
    else
      match findWeekday t with
      | some idx => some (addDays (weekdayOffset idx base_day) base_day)
      | none =>
        match searchDDMMYYYY t with
        | some (d, mth, yr) =>
          if isValidDate yr mth d then some ⟨yr, mth, d⟩ else ddmmFallback t base_day
        | none => ddmmFallback t base_day

/-! ## Homework fallback pipeline (`untis_to_ics.py`, step 3b) -/

/-- A lesson as seen by `next_subject_day`: its (optional) localized
start date and the subject names `get_subject_names(session, lesson)`
resolves for it. -/
structure NoteLesson where
  startDate : Option PyDate
  subjects : List String
deriving DecidableEq

/-- `next_subject_day(subject, lessons, session, tz, base_day)` from
`untis_to_ics.py`: earliest lesson day of the same subject strictly
after `base_day` and at most 21 days later, defaulting to
`base_day + 1` when none exists. -/
def next_subject_day (subject : String) (lessons : List NoteLesson)
    (base_day : PyDate) : PyDate :=
  let subj_low := pyLower subject
  let horizon := addDays 21 base_day
  let best := lessons.foldl (fun best l =>
    match l.startDate with
    | none => best
    | some d =>
      if dateLt base_day d && dateLe d horizon then
        if l.subjects.any (fun n => subj_low == pyLower n) then
          match best with
          | none => some d
          | some b => if dateLt d b then some d else some b
        else best
      else best) none
  match best with
  | some b => b
  | none => addDays 1 base_day

/-- A homework calendar entry, keyed by `(due.isoformat(), subject, info)`
in the source. -/
structure HomeworkItem where
  due : PyDate
  subject : String
  text : String
deriving DecidableEq

/-- The homework branch of pipeline step 3b in `untis_to_ics.py` (lines
319-332) for one lesson note and an empty dedup set: if
`contains_homework(info)`, one event is created whose due date is
`parse_due_date(info, base_day) or next_subject_day(...)`. -/
def hw_events_for_note (info : String) (base_day : PyDate)
    (lessons : List NoteLesson) (subject : String) : List HomeworkItem :=
  if contains_homework info then
    let due := match parse_due_date info base_day with
      | some d => d
      | none => next_subject_day subject lessons base_day
    [⟨due, subject, info⟩]
  else []

/-- The homework event uid `f"HW|{due.isoformat()}|{subj}|{abs(hash(txt))}"`
(`untis_to_ics.py` lines 304 and 331).  `pyHash` stands for the
process's `hash` on strings; since Python 3.3 string hashing is salted
per process (`PYTHONHASHSEED`), so separate runs use different `pyHash`
functions. -/
def hw_uid (pyHash : String → Int) (due : PyDate) (subj txt : String) : String :=
  "HW|" ++ due.isoformat ++ "|" ++ subj ++ "|" ++ toString (pyHash txt).natAbs

/-! ## Scope resolution (three `pick_scope` variants) -/

/-- The scope dictionary returned by `pick_scope`; exactly one variant. -/
inductive Scope where
  | student (id : Int)
  | teacher (id : Int)
  | classId (id : Int)
  | person (personType personId : Int)
deriving DecidableEq

/-- `pick_scope(session)` from `untis_to_ics.py`: explicit env
identifiers first (student, then teacher, then class), then the
`get_current_user` identity lookup.  `sid`/`tid`/`cid` are the parsed
env values (`none` models an unset or empty variable); `me` models a
successful lookup with truthy `personType`/`personId` (`none` covers a
raised exception or falsy fields).  `none` as result models the
`RuntimeError` raised when nothing applies. -/
def pick_scope_ics (sid tid cid : Option Int) (me : Option (Int × Int)) :
    Option Scope :=
  match sid with
  | some s => some (Scope.student s)
  | none =>
    match tid with
    | some t => some (Scope.teacher t)
    | none =>
      match cid with
      | some c => some (Scope.classId c)
      | none =>
        match me with
        | some (pt, pid) => some (Scope.person pt pid)
        | none => none

/-- `pick_scope(session)` from `untis_common.py`: the `get_current_user`
identity lookup is tried first; only when it fails are the explicit env
identifiers consulted. -/
def pick_scope_common (sid tid cid : Option Int) (me : Option (Int × Int)) :
    Option Scope :=
  match me with
  | some (pt, pid) => some (Scope.person pt pid)
  | none =>
    match sid with
    | some s => some (Scope.student s)
    | none =>
      match tid with
      | some t => some (Scope.teacher t)
      | none =>
        match cid with
        | some c => some (Scope.classId c)
        | none => none

/-- `pick_scope(session)` from `untis_to_caldav.py` (same structure as
the `untis_common.py` variant: identity lookup first). -/
def pick_scope_caldav (sid tid cid : Option Int) (me : Option (Int × Int)) :
    Option Scope :=
  match me with
  | some (pt, pid) => some (Scope.person pt pid)
  | none =>
    match sid with
    | some s => some (Scope.student s)
    | none =>
      match tid with
      | some t => some (Scope.teacher t)
      | none =>
        match cid with
        | some c => some (Scope.classId c)
        | none => none

/-! ## Lesson normalizer (`untis_common.py`) -/

/-- Python truthiness filter for an optional string: `None` and the
empty string are falsy. -/
def truthyStr : Option String → Option String
  | some s => if s = "" then none else some s
  | none => none

/-- Python `a or b or ... or dflt` over optional strings. -/
def firstTruthy (xs : List (Option String)) (dflt : String) : String :=
  match xs with
  | [] => dflt
  | x :: rest =>
    match truthyStr x with
    | some s => s
    | none => firstTruthy rest dflt

/-- `getattr(x, "long_name", None) or getattr(x, "name", None)` followed
by the `if name:` truthiness check used for rooms and teachers. -/
def pickName (long_name nm : Option String) : Option String :=
  match truthyStr long_name with
  | some s => some s
  | none => truthyStr nm

/-- A subject/room/teacher reference with its two name fields. -/
structure RawRef where
  long_name : Option String
  name : Option String
deriving DecidableEq

/-- A raw WebUntis lesson record as read by `extract_lesson_details`.
`finish` is the Python attribute `end` (a Lean keyword); timestamps are
minutes as `Int`, `none` modelling a missing/`None` value.  `code` is
`none` for an absent or `None` attribute (`str` of either is not a
cancellation code). -/
structure RawLesson where
  start : Option Int
  finish : Option Int
  subject : Option RawRef
  rooms : List RawRef
  teachers : List RawRef
  code : Option String
  is_cancelled : Bool
  substText : Option String
deriving DecidableEq

/-- `_localize(dt, tz)` from `untis_common.py`: `None` stays `None`;
time-zone conversion itself is the identity on the minute timestamps of
this model. -/
def _localize (dt : Option Int) : Option Int := dt

/-- The normalized dict built by `extract_lesson_details`. -/
structure LessonDetail where
  beginAt : Int
  endAt : Int
  subject : String
  room : String
  teachers : String
  notes : List String
  cancelled : Bool
deriving DecidableEq

/-- `extract_lesson_details(lesson, tz)` from `untis_common.py`: raises
`ValueError` (modelled as `Except.error`) when begin or end is
unresolvable, otherwise builds the normalized detail dict. -/
def extract_lesson_details (lesson : RawLesson) : Except String LessonDetail :=
  match _localize lesson.start, _localize lesson.finish with
  | some b, some e =>
    let subject_name := firstTruthy
      [lesson.subject.bind (fun s => s.long_name),
       lesson.subject.bind (fun s => s.name)] "Unterricht"
    let room_str := String.intercalate ", "
      (lesson.rooms.filterMap (fun r => pickName r.long_name r.name))
    let teachers_str := String.intercalate ", "
      (lesson.teachers.filterMap (fun t => pickName t.long_name t.name))
    let notes0 : List String :=
      if teachers_str = "" then [] else ["Lehrkraft: " ++ teachers_str]
    let notes1 := match truthyStr lesson.code with
      | some c => notes0 ++ ["Code: " ++ c]
      | none => notes0
    let notes2 := match truthyStr lesson.substText with
      | some s => notes1 ++ ["Hinweis: " ++ s]
      | none => notes1
    let cancelled := lesson.is_cancelled
      || ["CANCELLED", "CANC"].contains (pyUpper (lesson.code.getD ""))
    Except.ok
      { beginAt := b, endAt := e, subject := subject_name, room := room_str,
        teachers := teachers_str, notes := notes2, cancelled := cancelled }
  | _, _ => Except.error "Unterrichtseinheit ohne Start/Ende erhalten."

/-- The sort key `(d["begin"], d["end"], d["subject"], d["room"])` of
`normalize_lessons`, as a total lexicographic comparison. -/
def detailKeyLe (a b : LessonDetail) : Bool :=
  if a.beginAt ≠ b.beginAt then decide (a.beginAt < b.beginAt)
  else if a.endAt ≠ b.endAt then decide (a.endAt < b.endAt)
  else if a.subject ≠ b.subject then decide (a.subject < b.subject)
  else decide (a.room ≤ b.room)

/-- `normalize_lessons(lessons, tz)` from `untis_common.py`: maps
`extract_lesson_details` over all records — so a single record without
begin/end aborts with its `ValueError` — and sorts the results. -/
def normalize_lessons (lessons : List RawLesson) :
    Except String (List LessonDetail) := do
  let details ← lessons.mapM extract_lesson_details
  return details.insertionSort (fun a b => detailKeyLe a b = true)

/-- `lesson_uid(details)` from `untis_common.py`:
`"|".join([begin.isoformat(), subject, room, teachers])`.  `toString`
on the minute timestamp stands in for the injective
`datetime.isoformat`; the end time is not part of the uid. -/
def lesson_uid (details : LessonDetail) : String :=
  String.intercalate "|"
    [toString details.beginAt, details.subject, details.room, details.teachers]

/-! ## Interval collection in `main` (`untis_to_ics.py`, lines 224-234) -/

/-- One raw lesson as consumed by the main loop of `untis_to_ics.py`. -/
structure MainLesson where
  start : Option Int
  finish : Option Int
  code : Option String
  is_cancelled : Bool
deriving DecidableEq

/-- One iteration of the lesson loop in lines 224-234 of
`untis_to_ics.py`: keep the `(begin, finish)` interval when both
timestamps resolve and the lesson is not cancelled; `continue`
otherwise. -/
def collectStep (l : MainLesson) (acc : List Interval) : List Interval :=
  match l.start, l.finish with
  | some b, some e =>
    let code := pyLower (l.code.getD "")
    let is_cancel := l.is_cancelled || ["cancelled", "canc", "absent"].contains code
    if is_cancel then acc else (b, e) :: acc
  | _, _ => acc

/-- The whole lesson loop of lines 224-234: the intervals kept, in
order.  A record missing a timestamp is skipped; the per-day grouping
applied afterwards is downstream of this filter. -/
def collect_intervals (lessons : List MainLesson) : List Interval :=
  lessons.foldr collectStep []

/-! ## Claim theorems -/

/-- C1: the claim says each homework event uid is a deterministic
function of its (dueDate, subjectName, text) key, identical across
separate runs.  It is not: the uid embeds `abs(hash(text))`, and Python
string hashing is salted per process, so two runs whose salted hash
functions differ on the note text yield different uids for the same
(dueDate, subjectName, text) key.  Here the two `fun` arguments stand
for the string-hash functions of two runs with different salts. -/
theorem claim_C1 :
    hw_uid (fun _ => 0) ⟨2025, 10, 8⟩ "Mathematik" "Buch S. 12" ≠
      hw_uid (fun _ => 1) ⟨2025, 10, 8⟩ "Mathematik" "Buch S. 12" := by
  decide

/-- C2 counterexample: the note "hausaufgabe" contains a homework
keyword but no recognizable date pattern (`parse_due_date` returns
`None`), yet the pipeline produces one homework event for it, with the
fabricated due date `next_subject_day(...)` = base day + 1. -/
theorem claim_C2_counterexample :
    parse_due_date "hausaufgabe" ⟨2025, 10, 6⟩ = none ∧
    contains_homework "hausaufgabe" = true ∧
    hw_events_for_note "hausaufgabe" ⟨2025, 10, 6⟩ [] "Mathe" =
      [⟨⟨2025, 10, 7⟩, "Mathe", "hausaufgabe"⟩] :=
  ⟨by rfl, by rfl, by rfl⟩

/-- C2 amended: a note with a homework keyword but no recognizable date
pattern still produces exactly one homework event; its due date is
fabricated by the `next_subject_day` fallback (the next day the subject
is taught within 21 days, else base day + 1). -/
theorem claim_C2_amended (info : String) (base_day : PyDate)
    (lessons : List NoteLesson) (subject : String)
    (hh : contains_homework info = true)
    (hd : parse_due_date info base_day = none) :
    hw_events_for_note info base_day lessons subject =
      [⟨next_subject_day subject lessons base_day, subject, info⟩] := by
  simp [hw_events_for_note, hh, hd]

/-- C2 witness: the amended claim at the concrete counterexample note. -/
theorem claim_C2_witness :
    hw_events_for_note "hausaufgabe" ⟨2025, 10, 6⟩ [] "Mathe" =
      [⟨next_subject_day "Mathe" [] ⟨2025, 10, 6⟩, "Mathe", "hausaufgabe"⟩] :=
  claim_C2_amended "hausaufgabe" ⟨2025, 10, 6⟩ [] "Mathe" (by rfl) (by rfl)

/-- C3 counterexample: in the `untis_common.py` (and `untis_to_caldav.py`)
variant of `pick_scope`, an explicit student id 7 is configured and the
identity lookup succeeds with person (5, 9) — and resolution returns the
person scope from the lookup, not the explicit student scope. -/
theorem claim_C3_counterexample :
    pick_scope_common (some 7) none none (some (5, 9)) =
      some (Scope.person 5 9) ∧
    pick_scope_common (some 7) none none (some (5, 9)) ≠
      some (Scope.student 7) :=
  ⟨rfl, by decide⟩

/-- C3 amended: only `untis_to_ics.py` gives explicit identifiers
priority; in `untis_common.py` and `untis_to_caldav.py` a successful
identity lookup wins over any explicit identifier.  In all three
variants, resolution with neither an explicit identifier nor a
successful lookup fails fatally (`RuntimeError`, modelled as `none`). -/
theorem claim_C3_amended :
    (∀ (s : Int) (tid cid : Option Int) (me : Option (Int × Int)),
      pick_scope_ics (some s) tid cid me = some (Scope.student s)) ∧
    (∀ (sid tid cid : Option Int) (pt pid : Int),
      pick_scope_common sid tid cid (some (pt, pid)) =
        some (Scope.person pt pid)) ∧
    (∀ (sid tid cid : Option Int) (pt pid : Int),
      pick_scope_caldav sid tid cid (some (pt, pid)) =
        some (Scope.person pt pid)) ∧
    pick_scope_ics none none none none = none ∧
    pick_scope_common none none none none = none ∧
    pick_scope_caldav none none none none = none :=
  ⟨fun _ _ _ _ => rfl, fun _ _ _ _ _ => rfl, fun _ _ _ _ _ => rfl,
   rfl, rfl, rfl⟩

/-- C4 counterexample: a lesson record with an unresolvable begin
timestamp makes lesson normalization raise `ValueError` — the record is
not silently skipped, and processing of remaining records aborts. -/
theorem claim_C4_counterexample :
    normalize_lessons
        [⟨some 0, some 45, none, [], [], none, false, none⟩,
         ⟨none, some 45, none, [], [], none, false, none⟩] =
      Except.error "Unterrichtseinheit ohne Start/Ende erhalten." :=
  rfl

/-- C4 amended: `extract_lesson_details` raises `ValueError` on a record
whose begin or end is unresolvable (and `normalize_lessons` propagates
it), while the lesson loop in `untis_to_ics.py`'s `main` does skip such
a record silently and continues with the remaining records. -/
theorem claim_C4_amended :
    (∀ l : RawLesson, l.start = none ∨ l.finish = none →
      extract_lesson_details l =
        Except.error "Unterrichtseinheit ohne Start/Ende erhalten.") ∧
    (∀ (pre post : List MainLesson) (l : MainLesson),
      l.start = none ∨ l.finish = none →
      collect_intervals (pre ++ l :: post) = collect_intervals (pre ++ post)) := by
  constructor
  · intro l h
    rcases h with h | h <;>
      rcases hs : l.start with _ | b <;>
      rcases hf : l.finish with _ | e <;>
      simp_all [extract_lesson_details, _localize]
  · intro pre post l h
    have hskip : ∀ acc : List Interval, collectStep l acc = acc := by
      intro acc
      rcases h with h | h <;>
        rcases hs : l.start with _ | b <;>
        rcases hf : l.finish with _ | e <;>
        simp_all [collectStep]
    simp [collect_intervals, List.foldr_append, hskip]

/-- C4 witness: the amended claim at a concrete record without a begin
timestamp, in both halves. -/
theorem claim_C4_witness :
    extract_lesson_details ⟨none, some 45, none, [], [], none, false, none⟩ =
      Except.error "Unterrichtseinheit ohne Start/Ende erhalten." ∧
    collect_intervals
        [⟨some 0, some 45, none, false⟩, ⟨none, some 45, none, false⟩] =
      collect_intervals [⟨some 0, some 45, none, false⟩] :=
  ⟨claim_C4_amended.1 ⟨none, some 45, none, [], [], none, false, none⟩
      (Or.inl rfl),
   claim_C4_amended.2 [⟨some 0, some 45, none, false⟩] []
      ⟨none, some 45, none, false⟩ (Or.inl rfl)⟩

/-- C5 counterexample: two normalized lessons that differ only in their
end time (45 vs 90) are distinct logical events, yet `lesson_uid` gives
them the same uid — the uid omits the end time. -/
theorem claim_C5_counterexample :
    lesson_uid ⟨0, 45, "Mathe", "R1", "Frau X", [], false⟩ =
      lesson_uid ⟨0, 90, "Mathe", "R1", "Frau X", [], false⟩ ∧
    (⟨0, 45, "Mathe", "R1", "Frau X", [], false⟩ : LessonDetail) ≠
      ⟨0, 90, "Mathe", "R1", "Frau X", [], false⟩ :=
  ⟨rfl, by decide⟩

/-- C5 amended: `lesson_uid` is a pure function of (begin, subject,
room, teachers) — stable across runs — but not collision-free on
distinct logical events: any two details agreeing on those four fields
get the same uid even when their end times differ. -/
theorem claim_C5_amended (d1 d2 : LessonDetail)
    (hb : d1.beginAt = d2.beginAt) (hs : d1.subject = d2.subject)
    (hr : d1.room = d2.room) (ht : d1.teachers = d2.teachers) :
    lesson_uid d1 = lesson_uid d2 := by
  simp [lesson_uid, hb, hs, hr, ht]

/-- C5 witness: the amended claim applied to the two colliding details. -/
theorem claim_C5_witness :
    lesson_uid ⟨0, 45, "Mathe", "R1", "Frau X", [], false⟩ =
      lesson_uid ⟨0, 90, "Mathe", "R1", "Frau X", [], false⟩ :=
  claim_C5_amended ⟨0, 45, "Mathe", "R1", "Frau X", [], false⟩
    ⟨0, 90, "Mathe", "R1", "Frau X", [], false⟩ rfl rfl rfl rfl

/-- C6: the merge comparison `b - last_e <= max_gap` is inclusive at the
threshold: two ordered intervals whose gap equals the threshold exactly
merge into one block; concretely, [9:00,9:45) and [10:00,10:45) (in
minutes of the day) merge with a 15-minute threshold and stay separate
with a 14-minute threshold. -/
theorem claim_C6 :
    (∀ b1 e1 b2 e2 g : Int, b1 ≤ b2 → b2 - e1 = g → e1 ≤ e2 →
      merge_into_blocks [(b1, e1), (b2, e2)] g = [(b1, e2)]) ∧
    merge_into_blocks [(540, 585), (600, 645)] 15 = [(540, 645)] ∧
    merge_into_blocks [(540, 585), (600, 645)] 14 =
      [(540, 585), (600, 645)] := by
  refine ⟨?_, by decide, by decide⟩
  intro b1 e1 b2 e2 g hb hgap he
  have hsort : ([(b1, e1), (b2, e2)] : List Interval).insertionSort beginLe
      = [(b1, e1), (b2, e2)] :=
    List.Sorted.insertionSort_eq (by simp [List.sorted_cons, beginLe, hb])
  have h1 : b2 - e1 ≤ g := by omega
  have h2 : (if e1 < e2 then e2 else e1) = e2 := by
    rcases eq_or_lt_of_le he with h | h
    · simp [h]
    · simp [h]
  unfold merge_into_blocks
  rw [hsort]
  simp only [runMerge, mergeLoop, if_pos h1, h2]

/-- C6 witness: the universal boundary statement of `claim_C6` at a
concrete pair with gap exactly 15. -/
theorem claim_C6_witness :
    merge_into_blocks [(0, 45), (60, 90)] 15 = [(0, 90)] :=
  claim_C6.1 0 45 60 90 15 (by decide) (by decide) (by decide)

/-! ### Structure lemmas for `mergeLoop`, towards C7 and C10 -/

/-- The first output block of `mergeLoop` keeps the begin of the block
it grows. -/
theorem mergeLoop_head (g : Int) (cur : Interval) (rest : List Interval) :
    ∃ e tail, mergeLoop g cur rest = (cur.1, e) :: tail := by
  induction rest generalizing cur with
  | nil => exact ⟨cur.2, [], rfl⟩
  | cons p ps ih =>
    obtain ⟨b, e⟩ := p
    by_cases h : b - cur.2 ≤ g
    · obtain ⟨e', tail, heq⟩ := ih (cur.1, if cur.2 < e then e else cur.2)
      exact ⟨e', tail, by simp only [mergeLoop, if_pos h]; exact heq⟩
    · exact ⟨cur.2, mergeLoop g (b, e) ps, by simp only [mergeLoop, if_neg h]⟩

/-- Adjacent blocks of a `mergeLoop` result are separated by more than
the gap threshold. -/
theorem mergeLoop_chain (g : Int) (cur : Interval) (rest : List Interval) :
    List.Chain' (fun p q => ¬(q.1 - p.2 ≤ g)) (mergeLoop g cur rest) := by
  induction rest generalizing cur with
  | nil => simp [mergeLoop]
  | cons p ps ih =>
    obtain ⟨b, e⟩ := p
    by_cases h : b - cur.2 ≤ g
    · simpa only [mergeLoop, if_pos h] using
        ih (cur.1, if cur.2 < e then e else cur.2)
    · obtain ⟨e', tail, heq⟩ := mergeLoop_head g (b, e) ps
      have hch := ih (b, e)
      rw [heq] at hch
      simp only [mergeLoop, if_neg h, heq]
      exact List.Chain'.cons (by simpa using h) hch

/-- Every begin in a `mergeLoop` result is the current block's begin or
one of the input begins. -/
theorem mergeLoop_begins (g : Int) (cur : Interval) (rest : List Interval) :
    ∀ q ∈ mergeLoop g cur rest, q.1 = cur.1 ∨ q.1 ∈ rest.map Prod.fst := by
  induction rest generalizing cur with
  | nil =>
    intro q hq
    simp only [mergeLoop, List.mem_singleton] at hq
    simp [hq]
  | cons p ps ih =>
    obtain ⟨b, e⟩ := p
    intro q hq
    by_cases h : b - cur.2 ≤ g
    · simp only [mergeLoop, if_pos h] at hq
      rcases ih _ q hq with h1 | h1
      · exact Or.inl h1
      · exact Or.inr (by simp [h1])
    · simp only [mergeLoop, if_neg h, List.mem_cons] at hq
      rcases hq with rfl | hq
      · exact Or.inl rfl
      · rcases ih (b, e) q hq with h1 | h1
        · exact Or.inr (by simp [h1])
        · exact Or.inr (by simp [h1])

/-- On a begin-sorted input, `mergeLoop` produces a begin-sorted list. -/
theorem mergeLoop_sorted (g : Int) (cur : Interval) (rest : List Interval)
    (hs : List.Sorted beginLe (cur :: rest)) :
    List.Sorted beginLe (mergeLoop g cur rest) := by
  induction rest generalizing cur with
  | nil => simp [mergeLoop]
  | cons p ps ih =>
    obtain ⟨b, e⟩ := p
    rw [List.sorted_cons] at hs
    obtain ⟨hcur, htail⟩ := hs
    rw [List.sorted_cons] at htail
    obtain ⟨hb, hps⟩ := htail
    by_cases h : b - cur.2 ≤ g
    · have hs' : List.Sorted beginLe
          ((cur.1, if cur.2 < e then e else cur.2) :: ps) := by
        rw [List.sorted_cons]
        exact ⟨fun x hx => hcur x (List.mem_cons_of_mem _ hx), hps⟩
      simpa only [mergeLoop, if_pos h] using ih _ hs'
    · simp only [mergeLoop, if_neg h]
      rw [List.sorted_cons]
      refine ⟨?_, ih (b, e) (List.sorted_cons.mpr ⟨hb, hps⟩)⟩
      intro x hx
      rcases mergeLoop_begins g (b, e) ps x hx with h1 | h1
      · have hcb : cur.1 ≤ b := hcur (b, e) (List.mem_cons_self _ _)
        show cur.1 ≤ x.1
        omega
      · obtain ⟨y, hy, hyx⟩ := List.mem_map.mp h1
        have hcy : cur.1 ≤ y.1 := hcur y (List.mem_cons_of_mem _ hy)
        show cur.1 ≤ x.1
        omega

/-- On a list already in separated-block form, `mergeLoop` is the
identity. -/
theorem mergeLoop_of_chain (g : Int) (cur : Interval) (rest : List Interval)
    (h : List.Chain' (fun p q => ¬(q.1 - p.2 ≤ g)) (cur :: rest)) :
    mergeLoop g cur rest = cur :: rest := by
  induction rest generalizing cur with
  | nil => rfl
  | cons p ps ih =>
    obtain ⟨b, e⟩ := p
    rw [List.chain'_cons] at h
    simp only [mergeLoop, if_neg h.1]
    rw [ih (b, e) h.2]

/-- C7: merging is idempotent — `merge_into_blocks` applied to its own
output with the same threshold returns that output unchanged, for every
interval list and every threshold. -/
theorem claim_C7 (intervals : List Interval) (max_gap_min : Int) :
    merge_into_blocks (merge_into_blocks intervals max_gap_min) max_gap_min =
      merge_into_blocks intervals max_gap_min := by
  unfold merge_into_blocks
  cases hsort : intervals.insertionSort beginLe with
  | nil => simp [runMerge]
  | cons x rest =>
    have hsorted : List.Sorted beginLe (x :: rest) := by
      rw [← hsort]; exact List.sorted_insertionSort beginLe intervals
    have hys_sorted := mergeLoop_sorted max_gap_min x rest hsorted
    have hys_chain := mergeLoop_chain max_gap_min x rest
    show runMerge max_gap_min
        ((mergeLoop max_gap_min x rest).insertionSort beginLe) =
      mergeLoop max_gap_min x rest
    rw [List.Sorted.insertionSort_eq hys_sorted]
    cases hm : mergeLoop max_gap_min x rest with
    | nil => rfl
    | cons y tail =>
      rw [hm] at hys_chain
      exact mergeLoop_of_chain max_gap_min y tail hys_chain

/-! ### Canonicalizing equal-begin groups, towards C10 -/

/-- `if a < b then b else a` is the maximum. -/
theorem if_lt_max (a b : Int) : (if a < b then b else a) = max a b := by
  rcases le_or_lt b a with h | h
  · simp [not_lt.mpr h, max_eq_left h]
  · simp [h, max_eq_right h.le]

/-- Collapse adjacent intervals with equal begin into one with the
maximal end.  Proof device: on begin-sorted input this canonicalizes
the equal-begin runs that a permutation may reorder. -/
def collapse : List Interval → List Interval
  | [] => []
  | [x] => [x]
  | (b1, e1) :: (b2, e2) :: rest =>
    if b1 = b2 then collapse ((b1, max e1 e2) :: rest)
    else (b1, e1) :: collapse ((b2, e2) :: rest)
termination_by l => l.length

/-- The seed is below a `foldr max`. -/
theorem seed_le_foldr_max (d : Int) (l : List Int) :
    d ≤ List.foldr max d l := by
  induction l with
  | nil => exact le_refl d
  | cons c cs ih => exact le_trans ih (le_max_right c _)

/-- Every member is below a `foldr max`. -/
theorem mem_le_foldr_max (c d : Int) (l : List Int) (h : c ∈ l) :
    c ≤ List.foldr max d l := by
  induction l with
  | nil => cases h
  | cons a as ih =>
    rcases List.mem_cons.mp h with rfl | h
    · exact le_max_left _ _
    · exact le_trans (ih h) (le_max_right a _)

/-- A `foldr max` is below any common upper bound. -/
theorem foldr_max_le (d M : Int) (l : List Int) (hd : d ≤ M)
    (hl : ∀ c ∈ l, c ≤ M) : List.foldr max d l ≤ M := by
  induction l with
  | nil => exact hd
  | cons a as ih =>
    exact max_le (hl a (List.mem_cons_self _ _))
      (ih fun c hc => hl c (List.mem_cons_of_mem _ hc))

/-- A max fold is monotone in its seed. -/
theorem foldr_max_seed_mono (d d' : Int) (h : d ≤ d') (l : List Int) :
    List.foldr max d l ≤ List.foldr max d' l := by
  induction l with
  | nil => exact h
  | cons a as ih => exact max_le_max (le_refl a) ih

/-- Pulling one component of a combined seed out of a max fold. -/
theorem foldr_max_seed_split (a d : Int) (l : List Int) :
    List.foldr max (max a d) l ≤ max a (List.foldr max d l) := by
  induction l with
  | nil => exact le_refl _
  | cons c cs ih =>
    calc max c (List.foldr max (max a d) cs)
        ≤ max c (max a (List.foldr max d cs)) := max_le_max (le_refl c) ih
      _ = max a (max c (List.foldr max d cs)) := max_left_comm c a _

/-- Replacing the two leading elements of a max fold by their maximum
does not change the value. -/
theorem foldr_max_pair (e1 e2 : Int) (l : List Int) :
    List.foldr max (max e1 e2) (max e1 e2 :: l) =
      List.foldr max e1 (e1 :: e2 :: l) := by
  simp only [List.foldr_cons]
  apply le_antisymm
  · apply max_le
    · apply max_le
      · exact le_max_left e1 _
      · exact le_trans (le_max_left e2 _) (le_max_right e1 _)
    · have h1 : List.foldr max (max e1 e2) l ≤
          max e2 (List.foldr max e1 l) := by
        rw [max_comm e1 e2]
        exact foldr_max_seed_split e2 e1 l
      exact le_trans h1 (le_max_right e1 _)
  · apply max_le
    · exact le_trans (le_max_left e1 e2) (le_max_left _ _)
    · apply max_le
      · exact le_trans (le_max_right e1 e2) (le_max_left _ _)
      · exact le_trans
          (foldr_max_seed_mono e1 (max e1 e2) (le_max_left e1 e2) l)
          (le_max_right _ _)

/-- Max folds over permuted lists with seeds that belong to the lists
are equal. -/
theorem foldr_max_eq_of_perm_mem (G G' : List Int) (d d' : Int)
    (hp : G.Perm G') (hd : d ∈ G) (hd' : d' ∈ G') :
    List.foldr max d G = List.foldr max d' G' := by
  apply le_antisymm
  · exact foldr_max_le _ _ _
      (mem_le_foldr_max d d' G' (hp.mem_iff.mp hd))
      (fun c hc => mem_le_foldr_max c d' G' (hp.mem_iff.mp hc))
  · exact foldr_max_le _ _ _
      (mem_le_foldr_max d' d G (hp.symm.mem_iff.mp hd'))
      (fun c hc => mem_le_foldr_max c d G (hp.symm.mem_iff.mp hc))

/-- One-step unfolding of `mergeLoop` on a cons cell. -/
theorem mergeLoop_cons (g : Int) (cur : Interval) (b e : Int)
    (rest : List Interval) :
    mergeLoop g cur ((b, e) :: rest) =
      if b - cur.2 ≤ g then
        mergeLoop g (cur.1, if cur.2 < e then e else cur.2) rest
      else cur :: mergeLoop g (b, e) rest := rfl

/-- One-step unfolding of `collapse` on two leading cells. -/
theorem collapse_cons2 (b1 e1 b2 e2 : Int) (rest : List Interval) :
    collapse ((b1, e1) :: (b2, e2) :: rest) =
      if b1 = b2 then collapse ((b1, max e1 e2) :: rest)
      else (b1, e1) :: collapse ((b2, e2) :: rest) := by
  rw [collapse]

/-- The ends of the begin-`b` group of `l`. -/
def groupEnds (b : Int) (l : List Interval) : List Int :=
  (l.filter (fun p => decide (p.1 = b))).map Prod.snd

/-- On begin-sorted input, `collapse` yields the head's begin paired
with the maximal end of its equal-begin group, followed by the collapse
of the other groups. -/
theorem collapse_head_group (n : Nat) :
    ∀ (x : Interval) (t : List Interval), t.length ≤ n →
      List.Sorted beginLe (x :: t) →
      collapse (x :: t) =
        (x.1, List.foldr max x.2 (groupEnds x.1 (x :: t))) ::
          collapse (t.filter (fun p => !decide (p.1 = x.1))) := by
  induction n with
  | zero =>
    intro x t hlen hs
    have ht : t = [] := List.eq_nil_of_length_eq_zero (Nat.le_zero.mp hlen)
    subst ht
    obtain ⟨b, e⟩ := x
    simp [collapse, groupEnds]
  | succ n ih =>
    intro x t hlen hs
    cases t with
    | nil =>
      obtain ⟨b, e⟩ := x
      simp [collapse, groupEnds]
    | cons y ps =>
      obtain ⟨b1, e1⟩ := x
      obtain ⟨b2, e2⟩ := y
      rw [List.sorted_cons] at hs
      obtain ⟨hx, hs2⟩ := hs
      by_cases hb : b1 = b2
      · subst hb
        have hs' : List.Sorted beginLe ((b1, max e1 e2) :: ps) := by
          rw [List.sorted_cons]
          exact ⟨fun z hz => hx z (List.mem_cons_of_mem _ hz),
            (List.sorted_cons.mp hs2).2⟩
        have hlen' : ps.length ≤ n := by
          simpa using Nat.le_of_succ_le_succ (by simpa using hlen)
        rw [collapse_cons2, if_pos rfl, ih (b1, max e1 e2) ps hlen' hs']
        congr 1
        · have hg1 : groupEnds b1 ((b1, max e1 e2) :: ps) =
              max e1 e2 :: groupEnds b1 ps := by
            simp [groupEnds]
          have hg2 : groupEnds b1 ((b1, e1) :: (b1, e2) :: ps) =
              e1 :: e2 :: groupEnds b1 ps := by
            simp [groupEnds]
          rw [hg1, hg2, foldr_max_pair]
        · simp
      · have hb1b2 : b1 < b2 :=
          lt_of_le_of_ne (hx (b2, e2) (List.mem_cons_self _ _)) hb
        have hnops : ∀ p ∈ ps, p.1 ≠ b1 := by
          intro p hp
          have h2p : b2 ≤ p.1 := (List.sorted_cons.mp hs2).1 p hp
          omega
        rw [collapse_cons2, if_neg hb]
        have hg : groupEnds b1 ((b1, e1) :: (b2, e2) :: ps) = [e1] := by
          have hps : ps.filter (fun p => decide (p.1 = b1)) = [] := by
            apply List.filter_eq_nil_iff.mpr
            intro p hp
            simp [hnops p hp]
          simp [groupEnds, List.filter_cons, Ne.symm hb, hps]
        have hft : ((b2, e2) :: ps).filter (fun p => !decide (p.1 = b1)) =
            (b2, e2) :: ps := by
          apply List.filter_eq_self.mpr
          intro p hp
          rcases List.mem_cons.mp hp with rfl | hp
          · simp [Ne.symm hb]
          · simp [hnops p hp]
        rw [hg, hft]
        simp

/-- Collapsing two begin-sorted permutations of the same multiset gives
the same list. -/
theorem collapse_perm (n : Nat) :
    ∀ (l1 l2 : List Interval), l1.length ≤ n → l1.Perm l2 →
      List.Sorted beginLe l1 → List.Sorted beginLe l2 →
      collapse l1 = collapse l2 := by
  induction n with
  | zero =>
    intro l1 l2 hlen hp _ _
    have h1 : l1 = [] := List.eq_nil_of_length_eq_zero (Nat.le_zero.mp hlen)
    subst h1
    rw [hp.nil_eq]
  | succ n ih =>
    intro l1 l2 hlen hp hs1 hs2
    cases l1 with
    | nil => rw [hp.nil_eq]
    | cons x t1 =>
      cases l2 with
      | nil => exact absurd hp.symm.nil_eq (by simp)
      | cons y t2 =>
        have hyx : y ∈ x :: t1 := hp.symm.subset (List.mem_cons_self _ _)
        have hxy2 : x ∈ y :: t2 := hp.subset (List.mem_cons_self _ _)
        have h1 : x.1 ≤ y.1 := by
          rcases List.mem_cons.mp hyx with h | h
          · rw [h]
          · exact (List.sorted_cons.mp hs1).1 y h
        have h2 : y.1 ≤ x.1 := by
          rcases List.mem_cons.mp hxy2 with h | h
          · rw [h]
          · exact (List.sorted_cons.mp hs2).1 x h
        have hxy : x.1 = y.1 := le_antisymm h1 h2
        rw [collapse_head_group t1.length x t1 (le_refl _)
            (by rw [List.sorted_cons]; exact List.sorted_cons.mp hs1),
          collapse_head_group t2.length y t2 (le_refl _)
            (by rw [List.sorted_cons]; exact List.sorted_cons.mp hs2)]
        have hgroups : (groupEnds x.1 (x :: t1)).Perm (groupEnds y.1 (y :: t2)) := by
          rw [hxy]
          exact (hp.filter _).map _
        have hmem1 : x.2 ∈ groupEnds x.1 (x :: t1) := by
          simp only [groupEnds, List.mem_map]
          exact ⟨x, List.mem_filter.mpr ⟨List.mem_cons_self _ _, by simp⟩, rfl⟩
        have hmem2 : y.2 ∈ groupEnds y.1 (y :: t2) := by
          simp only [groupEnds, List.mem_map]
          exact ⟨y, List.mem_filter.mpr ⟨List.mem_cons_self _ _, by simp⟩, rfl⟩
        congr 1
        · exact Prod.ext hxy
            (foldr_max_eq_of_perm_mem _ _ _ _ hgroups hmem1 hmem2)
        · have hxy' : (fun p : Interval => !decide (p.1 = y.1)) =
              (fun p : Interval => !decide (p.1 = x.1)) := by
            funext p
            rw [hxy]
          rw [hxy']
          have hfx : (x :: t1).filter (fun p => !decide (p.1 = x.1)) =
              t1.filter (fun p => !decide (p.1 = x.1)) := by
            simp [List.filter_cons]
          have hfy : (y :: t2).filter (fun p => !decide (p.1 = x.1)) =
              t2.filter (fun p => !decide (p.1 = x.1)) := by
            simp [List.filter_cons, hxy]
          have hpf := hp.filter (fun p => !decide (p.1 = x.1))
          rw [hfx, hfy] at hpf
          apply ih
          · exact le_trans (List.length_filter_le _ _)
              (Nat.le_of_succ_le_succ hlen)
          · exact hpf
          · exact (List.sorted_cons.mp hs1).2.filter _
          · exact (List.sorted_cons.mp hs2).2.filter _

/-- `mergeLoop` cannot distinguish a rest list from its collapse, for a
nonnegative threshold and well-formed intervals. -/
theorem mergeLoop_collapse (g : Int) (hg : 0 ≤ g) :
    ∀ rest : List Interval, (∀ p ∈ rest, p.1 ≤ p.2) →
      ∀ cur, mergeLoop g cur rest = mergeLoop g cur (collapse rest) := by
  intro rest
  induction rest using collapse.induct with
  | case1 => intro _ _; simp [collapse]
  | case2 x => intro _ _; simp [collapse]
  | case3 e1 b e2 ps ih =>
    intro hwf cur
    have he1 : b ≤ e1 := hwf (b, e1) (by simp)
    have he2 : b ≤ e2 := hwf (b, e2) (by simp)
    have hwf' : ∀ p ∈ (b, max e1 e2) :: ps, p.1 ≤ p.2 := by
      intro p hp
      rcases List.mem_cons.mp hp with rfl | hp
      · simpa using le_trans he1 (le_max_left e1 e2)
      · exact hwf p (by simp [hp])
    have hstep : mergeLoop g cur ((b, e1) :: (b, e2) :: ps) =
        mergeLoop g cur ((b, max e1 e2) :: ps) := by
      by_cases hc : b - cur.2 ≤ g
      · have hm1 : cur.2 ≤ max cur.2 e1 := le_max_left _ _
        have hc2 : b - max cur.2 e1 ≤ g := by omega
        rw [mergeLoop_cons, if_pos hc, if_lt_max, mergeLoop_cons, if_pos hc2,
          if_lt_max, mergeLoop_cons, if_pos hc, if_lt_max, max_assoc]
      · have hin : b - e1 ≤ g := by omega
        rw [mergeLoop_cons, if_neg hc, mergeLoop_cons, if_pos hin, if_lt_max,
          mergeLoop_cons, if_neg hc]
    rw [hstep, ih hwf' cur, collapse_cons2, if_pos rfl]
  | case4 b1 e1 b2 e2 ps hb ih =>
    intro hwf cur
    have hwf2 : ∀ p ∈ (b2, e2) :: ps, p.1 ≤ p.2 := fun p hp =>
      hwf p (List.mem_cons_of_mem _ hp)
    rw [collapse_cons2, if_neg hb]
    by_cases hc : b1 - cur.2 ≤ g
    · calc mergeLoop g cur ((b1, e1) :: (b2, e2) :: ps)
          = mergeLoop g (cur.1, if cur.2 < e1 then e1 else cur.2)
              ((b2, e2) :: ps) := by
            rw [mergeLoop_cons, if_pos hc]
        _ = mergeLoop g (cur.1, if cur.2 < e1 then e1 else cur.2)
              (collapse ((b2, e2) :: ps)) := ih hwf2 _
        _ = mergeLoop g cur ((b1, e1) :: collapse ((b2, e2) :: ps)) := by
            rw [mergeLoop_cons, if_pos hc]
    · calc mergeLoop g cur ((b1, e1) :: (b2, e2) :: ps)
          = cur :: mergeLoop g (b1, e1) ((b2, e2) :: ps) := by
            rw [mergeLoop_cons, if_neg hc]
        _ = cur :: mergeLoop g (b1, e1) (collapse ((b2, e2) :: ps)) := by
            rw [ih hwf2 (b1, e1)]
        _ = mergeLoop g cur ((b1, e1) :: collapse ((b2, e2) :: ps)) := by
            rw [mergeLoop_cons, if_neg hc]

/-- `runMerge` cannot distinguish a sorted list from its collapse. -/
theorem runMerge_collapse (g : Int) (hg : 0 ≤ g) :
    ∀ l : List Interval, (∀ p ∈ l, p.1 ≤ p.2) →
      runMerge g l = runMerge g (collapse l) := by
  intro l
  induction l using collapse.induct with
  | case1 => intro _; simp [collapse]
  | case2 x => intro _; simp [collapse]
  | case3 e1 b e2 ps ih =>
    intro hwf
    have he1 : b ≤ e1 := hwf (b, e1) (by simp)
    have hin : b - e1 ≤ g := by omega
    have hwf' : ∀ p ∈ (b, max e1 e2) :: ps, p.1 ≤ p.2 := by
      intro p hp
      rcases List.mem_cons.mp hp with rfl | hp
      · simpa using le_trans he1 (le_max_left e1 e2)
      · exact hwf p (by simp [hp])
    rw [collapse_cons2, if_pos rfl, ← ih hwf']
    show mergeLoop g (b, e1) ((b, e2) :: ps) =
      runMerge g ((b, max e1 e2) :: ps)
    rw [mergeLoop_cons, if_pos hin, if_lt_max]
    rfl
  | case4 b1 e1 b2 e2 ps hb ih =>
    intro hwf
    rw [collapse_cons2, if_neg hb]
    show mergeLoop g (b1, e1) ((b2, e2) :: ps) =
      mergeLoop g (b1, e1) (collapse ((b2, e2) :: ps))
    exact mergeLoop_collapse g hg ((b2, e2) :: ps)
      (fun p hp => hwf p (List.mem_cons_of_mem _ hp)) (b1, e1)

/-- Merging two begin-sorted permutations of the same well-formed
multiset gives the same blocks. -/
theorem runMerge_perm (g : Int) (hg : 0 ≤ g) (l1 l2 : List Interval)
    (hp : l1.Perm l2) (hs1 : List.Sorted beginLe l1)
    (hs2 : List.Sorted beginLe l2) (hwf : ∀ p ∈ l1, p.1 ≤ p.2) :
    runMerge g l1 = runMerge g l2 := by
  rw [runMerge_collapse g hg l1 hwf,
    runMerge_collapse g hg l2 (fun p hp2 => hwf p (hp.symm.subset hp2)),
    collapse_perm l1.length l1 l2 (le_refl _) hp hs1 hs2]

/-- C10 counterexample: with the (admittedly unusual) negative threshold
-10, merging is NOT invariant under permutation of the input: the two
orders of the same two intervals produce different block lists (the
claim quantifies over every threshold). -/
theorem claim_C10_counterexample :
    ([(0, 5), (0, 100)] : List Interval).Perm [(0, 100), (0, 5)] ∧
    merge_into_blocks [(0, 5), (0, 100)] (-10) ≠
      merge_into_blocks [(0, 100), (0, 5)] (-10) := by
  constructor
  · decide
  · decide

/-- C10 amended: for every nonnegative gap threshold and every list of
well-formed intervals (begin ≤ end, as all lesson intervals are),
`merge_into_blocks` is invariant under permutation of its input: the
output depends only on the multiset of intervals. -/
theorem claim_C10_amended (xs ys : List Interval) (g : Int)
    (hp : xs.Perm ys) (hg : 0 ≤ g) (hwf : ∀ p ∈ xs, p.1 ≤ p.2) :
    merge_into_blocks xs g = merge_into_blocks ys g := by
  unfold merge_into_blocks
  apply runMerge_perm g hg
  · exact ((List.perm_insertionSort beginLe xs).trans hp).trans
      (List.perm_insertionSort beginLe ys).symm
  · exact List.sorted_insertionSort beginLe xs
  · exact List.sorted_insertionSort beginLe ys
  · intro p hpmem
    exact hwf p ((List.perm_insertionSort beginLe xs).subset hpmem)

/-- C10 witness: the amended claim on a concrete reordering. -/
theorem claim_C10_witness :
    merge_into_blocks [(0, 45), (30, 60), (10, 20)] 5 =
      merge_into_blocks [(10, 20), (0, 45), (30, 60)] 5 :=
  claim_C10_amended [(0, 45), (30, 60), (10, 20)]
    [(10, 20), (0, 45), (30, 60)] 5 (by decide) (by decide) (by decide)

/-! ### Calendar lemmas, towards C8 and C9 -/

/-- Unpacking the date-constructor check. -/
theorem isValidDate_iff (y m d : Nat) :
    isValidDate y m d = true ↔
      1 ≤ y ∧ y ≤ 9999 ∧ 1 ≤ m ∧ m ≤ 12 ∧ 1 ≤ d ∧ d ≤ monthLength y m := by
  unfold isValidDate
  simp [Bool.and_eq_true, decide_eq_true_eq, and_assoc]

/-- Months in range have at least 28 days. -/
theorem monthLength_pos (y m : Nat) (h1 : 1 ≤ m) (h2 : m ≤ 12) :
    1 ≤ monthLength y m := by
  unfold monthLength
  split
  · omega
  · split
    · split <;> omega
    · split <;> omega

/-- The defining recursion step of `daysBeforeMonth`. -/
theorem daysBeforeMonth_succ (y m : Nat) :
    daysBeforeMonth y (m + 1) = daysBeforeMonth y m + monthLength y m := rfl

/-- Days before December in terms of February's length. -/
theorem daysBeforeMonth_12 (y : Nat) :
    daysBeforeMonth y 12 = 306 + monthLength y 2 := by
  have h02 : daysBeforeMonth y 2 = 31 := rfl
  have s2 : daysBeforeMonth y 3 = daysBeforeMonth y 2 + monthLength y 2 :=
    daysBeforeMonth_succ y 2
  have s3 : daysBeforeMonth y 4 = daysBeforeMonth y 3 + monthLength y 3 :=
    daysBeforeMonth_succ y 3
  have s4 : daysBeforeMonth y 5 = daysBeforeMonth y 4 + monthLength y 4 :=
    daysBeforeMonth_succ y 4
  have s5 : daysBeforeMonth y 6 = daysBeforeMonth y 5 + monthLength y 5 :=
    daysBeforeMonth_succ y 5
  have s6 : daysBeforeMonth y 7 = daysBeforeMonth y 6 + monthLength y 6 :=
    daysBeforeMonth_succ y 6
  have s7 : daysBeforeMonth y 8 = daysBeforeMonth y 7 + monthLength y 7 :=
    daysBeforeMonth_succ y 7
  have s8 : daysBeforeMonth y 9 = daysBeforeMonth y 8 + monthLength y 8 :=
    daysBeforeMonth_succ y 8
  have s9 : daysBeforeMonth y 10 = daysBeforeMonth y 9 + monthLength y 9 :=
    daysBeforeMonth_succ y 9
  have s10 : daysBeforeMonth y 11 = daysBeforeMonth y 10 + monthLength y 10 :=
    daysBeforeMonth_succ y 10
  have s11 : daysBeforeMonth y 12 = daysBeforeMonth y 11 + monthLength y 11 :=
    daysBeforeMonth_succ y 11
  have m3 : monthLength y 3 = 31 := rfl
  have m4 : monthLength y 4 = 30 := rfl
  have m5 : monthLength y 5 = 31 := rfl
  have m6 : monthLength y 6 = 30 := rfl
  have m7 : monthLength y 7 = 31 := rfl
  have m8 : monthLength y 8 = 31 := rfl
  have m9 : monthLength y 9 = 30 := rfl
  have m10 : monthLength y 10 = 31 := rfl
  have m11 : monthLength y 11 = 30 := rfl
  omega

/-- Days in a whole year in terms of February's length. -/
theorem daysBeforeMonth_13 (y : Nat) :
    daysBeforeMonth y 13 = 337 + monthLength y 2 := by
  have h12 := daysBeforeMonth_12 y
  have s12 : daysBeforeMonth y 13 = daysBeforeMonth y 12 + monthLength y 12 :=
    daysBeforeMonth_succ y 12
  have m12 : monthLength y 12 = 31 := rfl
  omega

/-- The Boolean leap test as a proposition. -/
theorem isLeap_iff (y : Nat) :
    isLeap y = true ↔ (y % 4 = 0 ∧ y % 100 ≠ 0) ∨ y % 400 = 0 := by
  unfold isLeap
  simp [Bool.and_eq_true, Bool.or_eq_true, beq_iff_eq, bne_iff_ne]

set_option maxHeartbeats 1600000 in
/-- The day count before a year grows by that year's length. -/
theorem daysBeforeYear_succ (y : Nat) (hy : 1 ≤ y) :
    daysBeforeYear (y + 1) =
      daysBeforeYear y + (if isLeap y then 366 else 365) := by
  by_cases hL : isLeap y = true
  · rw [if_pos hL]
    have h := (isLeap_iff y).mp hL
    unfold daysBeforeYear
    omega
  · rw [if_neg hL]
    have h : ¬((y % 4 = 0 ∧ y % 100 ≠ 0) ∨ y % 400 = 0) := fun hh =>
      hL ((isLeap_iff y).mpr hh)
    unfold daysBeforeYear
    omega

/-- Python's `toordinal` increments by one from a valid day to the next. -/
theorem toOrdinal_nextDay (x : PyDate) (hv : x.valid = true) :
    toOrdinal (nextDay x) = toOrdinal x + 1 := by
  obtain ⟨y, m, d⟩ := x
  have hvv := (isValidDate_iff y m d).mp hv
  unfold nextDay
  dsimp only
  by_cases h1 : d < monthLength y m
  · rw [if_pos h1]
    show daysBeforeYear y + daysBeforeMonth y m + (d + 1) =
      daysBeforeYear y + daysBeforeMonth y m + d + 1
    omega
  · by_cases h2 : m < 12
    · rw [if_neg h1, if_pos h2]
      show daysBeforeYear y + daysBeforeMonth y (m + 1) + 1 =
        daysBeforeYear y + daysBeforeMonth y m + d + 1
      have hm := daysBeforeMonth_succ y m
      omega
    · rw [if_neg h1, if_neg h2]
      have hm12 : m = 12 := by omega
      subst hm12
      have hml : monthLength y 12 = 31 := rfl
      have hd : d = 31 := by omega
      subst hd
      show daysBeforeYear (y + 1) + daysBeforeMonth (y + 1) 1 + 1 =
        daysBeforeYear y + daysBeforeMonth y 12 + 31 + 1
      rw [daysBeforeYear_succ y hvv.1, daysBeforeMonth_12]
      have h1y : daysBeforeMonth (y + 1) 1 = 0 := rfl
      rw [h1y]
      have h2l : monthLength y 2 = if isLeap y then 29 else 28 := rfl
      cases hL : isLeap y <;> simp [hL] at h2l ⊢ <;> omega

/-- The last representable Python date. -/
theorem toOrdinal_max : toOrdinal ⟨9999, 12, 31⟩ = 3652059 := by decide

/-- A valid date strictly before the maximum has a valid successor. -/
theorem nextDay_valid (x : PyDate) (hv : x.valid = true)
    (hb : toOrdinal x < 3652059) : (nextDay x).valid = true := by
  obtain ⟨y, m, d⟩ := x
  have hvv := (isValidDate_iff y m d).mp hv
  unfold nextDay
  dsimp only
  by_cases h1 : d < monthLength y m
  · rw [if_pos h1]
    show isValidDate y m (d + 1) = true
    exact (isValidDate_iff _ _ _).mpr (by omega)
  · by_cases h2 : m < 12
    · rw [if_neg h1, if_pos h2]
      show isValidDate y (m + 1) 1 = true
      refine (isValidDate_iff _ _ _).mpr ?_
      have := monthLength_pos y (m + 1) (by omega) (by omega)
      omega
    · rw [if_neg h1, if_neg h2]
      have hm12 : m = 12 := by omega
      subst hm12
      have hml : monthLength y 12 = 31 := rfl
      have hd : d = 31 := by omega
      subst hd
      have hy : y ≤ 9998 := by
        by_contra hc
        have hy9 : y = 9999 := by omega
        subst hy9
        rw [show toOrdinal ⟨9999, 12, 31⟩ = 3652059 from toOrdinal_max] at hb
        omega
      show isValidDate (y + 1) 1 1 = true
      refine (isValidDate_iff _ _ _).mpr ?_
      have hml1 : monthLength (y + 1) 1 = 31 := rfl
      omega

/-- `addDays` stays valid and advances the ordinal by the day count, as
long as the result stays within Python's date range. -/
theorem toOrdinal_addDays (k : Nat) (x : PyDate) (hv : x.valid = true)
    (hb : toOrdinal x + k ≤ 3652059) :
    (addDays k x).valid = true ∧ toOrdinal (addDays k x) = toOrdinal x + k := by
  induction k with
  | zero => exact ⟨hv, rfl⟩
  | succ k ih =>
    obtain ⟨ihv, iho⟩ := ih (by omega)
    have hstep : addDays (k + 1) x = nextDay (addDays k x) :=
      Function.iterate_succ_apply' nextDay k x
    have hlt : toOrdinal (addDays k x) < 3652059 := by omega
    refine ⟨?_, ?_⟩
    · rw [hstep]
      exact nextDay_valid _ ihv hlt
    · rw [hstep, toOrdinal_nextDay _ ihv, iho]
      omega

/-- A weekday index found in the table is in 0..6. -/
theorem findWeekday_le (t : String) (idx : Nat)
    (h : findWeekday t = some idx) : idx ≤ 6 := by
  unfold findWeekday at h
  obtain ⟨wi, hmem, hf⟩ := List.exists_of_findSome?_eq_some h
  have hidx : wi.2 = idx := by
    by_cases hp : pySubstr wi.1 t = true
    · simpa [hp] using hf
    · simp [hp] at hf
  have h6 : wi.2 ≤ 6 := by
    simp only [WEEKDAYS_DE, List.mem_cons, List.not_mem_nil, or_false]
      at hmem
    rcases hmem with rfl | rfl | rfl | rfl | rfl | rfl | rfl <;> simp
  omega

/-- The weekday branch of `parse_due_date`: when the text is not empty,
has no "heute"/"morgen", and a weekday name is found, the result is the
base day advanced by the computed offset. -/
theorem parse_due_date_weekday (text : String) (base_day : PyDate) (idx : Nat)
    (h1 : pySubstr "heute" (pyLower text) = false)
    (h2 : pySubstr "morgen" (pyLower text) = false)
    (h3 : findWeekday (pyLower text) = some idx) :
    parse_due_date text base_day =
      some (addDays (weekdayOffset idx base_day) base_day) := by
  have htext : text ≠ "" := by
    intro he
    rw [he] at h3
    rw [show pyLower "" = "" from rfl] at h3
    rw [show findWeekday "" = none from by decide] at h3
    exact Option.noConfusion h3
  unfold parse_due_date
  rw [if_neg htext]
  simp only [h1, h2, h3, Bool.false_eq_true, if_false]

/-- Bounds and congruence for the weekday offset. -/
theorem weekdayOffset_spec (idx : Nat) (base_day : PyDate) :
    1 ≤ weekdayOffset idx base_day ∧ weekdayOffset idx base_day ≤ 7 ∧
      (pyWeekday base_day + weekdayOffset idx base_day) % 7 = idx % 7 := by
  have hge := Int.emod_nonneg ((idx : Int) - (pyWeekday base_day : Int))
    (show (7 : Int) ≠ 0 by norm_num)
  have hlt := Int.emod_lt_of_pos ((idx : Int) - (pyWeekday base_day : Int))
    (show (0 : Int) < 7 by norm_num)
  unfold weekdayOffset
  dsimp only
  split <;> omega

/-- C8: for every valid base day (with a week of headroom inside
Python's date range) and every note text containing a German weekday
name but neither "heute" nor "morgen", `parse_due_date` returns the
next occurrence of that weekday strictly after the base day: the result
is 1..7 days later, is strictly later, falls on the named weekday, no
earlier day after the base day does, and when the named weekday equals
the base day's own weekday the offset is exactly 7. -/
theorem claim_C8 (text : String) (base_day : PyDate) (idx : Nat)
    (hv : base_day.valid = true)
    (hb : toOrdinal base_day + 7 ≤ 3652059)
    (h1 : pySubstr "heute" (pyLower text) = false)
    (h2 : pySubstr "morgen" (pyLower text) = false)
    (h3 : findWeekday (pyLower text) = some idx) :
    parse_due_date text base_day =
      some (addDays (weekdayOffset idx base_day) base_day) ∧
    1 ≤ weekdayOffset idx base_day ∧ weekdayOffset idx base_day ≤ 7 ∧
    toOrdinal base_day <
      toOrdinal (addDays (weekdayOffset idx base_day) base_day) ∧
    pyWeekday (addDays (weekdayOffset idx base_day) base_day) = idx ∧
    (∀ k, 1 ≤ k → k < weekdayOffset idx base_day →
      pyWeekday (addDays k base_day) ≠ idx) ∧
    (idx = pyWeekday base_day → weekdayOffset idx base_day = 7) := by
  have hidx : idx ≤ 6 := findWeekday_le _ _ h3
  obtain ⟨ho1, ho7, hcong⟩ := weekdayOffset_spec idx base_day
  have hord := toOrdinal_addDays (weekdayOffset idx base_day) base_day hv
    (by omega)
  have hwd : pyWeekday (addDays (weekdayOffset idx base_day) base_day) =
      idx := by
    unfold pyWeekday at hcong ⊢
    omega
  refine ⟨parse_due_date_weekday text base_day idx h1 h2 h3, ho1, ho7,
    by omega, hwd, ?_, ?_⟩
  · intro k hk1 hk2 hkeq
    have hordk := toOrdinal_addDays k base_day hv (by omega)
    unfold pyWeekday at hkeq hcong
    omega
  · intro heq
    have hge := Int.emod_nonneg ((idx : Int) - (pyWeekday base_day : Int))
      (show (7 : Int) ≠ 0 by norm_num)
    have hlt := Int.emod_lt_of_pos
      ((idx : Int) - (pyWeekday base_day : Int))
      (show (0 : Int) < 7 by norm_num)
    unfold weekdayOffset
    dsimp only
    split <;> omega

/-- C8 witness: 2025-10-08 is a Wednesday; a note naming "mittwoch"
resolves to the following Wednesday, 7 days later. -/
theorem claim_C8_witness :
    parse_due_date "am mittwoch" ⟨2025, 10, 8⟩ = some ⟨2025, 10, 15⟩ ∧
    weekdayOffset 2 ⟨2025, 10, 8⟩ = 7 := by
  have h := claim_C8 "am mittwoch" ⟨2025, 10, 8⟩ 2 (by decide) (by decide)
    (by decide) (by decide) (by decide)
  refine ⟨?_, h.2.2.2.2.2.2 (by decide)⟩
  rw [h.1]
  decide

/-- C9: when the first recognized pattern is a `day.month` form (no
"heute"/"morgen", no weekday name, no `day.month.year` match), the due
date assumes the base day's year; if that candidate is strictly before
the base day it rolls forward to the same day and month of the next
year. -/
theorem claim_C9 (text : String) (base_day : PyDate) (d mth : Nat)
    (h1 : pySubstr "heute" (pyLower text) = false)
    (h2 : pySubstr "morgen" (pyLower text) = false)
    (h3 : findWeekday (pyLower text) = none)
    (h4 : searchDDMMYYYY (pyLower text) = none)
    (h5 : searchDDMM (pyLower text) = some (d, mth))
    (hv1 : isValidDate base_day.y mth d = true)
    (hv2 : isValidDate (base_day.y + 1) mth d = true) :
    parse_due_date text base_day =
      some (if dateLt ⟨base_day.y, mth, d⟩ base_day
        then (⟨base_day.y + 1, mth, d⟩ : PyDate)
        else ⟨base_day.y, mth, d⟩) := by
  have htext : text ≠ "" := by
    intro he
    rw [he] at h5
    rw [show pyLower "" = "" from rfl] at h5
    rw [show searchDDMM "" = none from by decide] at h5
    exact Option.noConfusion h5
  unfold parse_due_date
  rw [if_neg htext]
  simp only [h1, h2, h3, h4, Bool.false_eq_true, if_false]
  unfold ddmmFallback
  rw [h5]
  simp only [hv1, if_true]
  split
  · simp only [hv2, if_true]
  · rfl

/-- C9 witness: base day 2025-12-20 and a note containing "3.1." give
January 3 of the following year, 2026-01-03. -/
theorem claim_C9_witness :
    parse_due_date "3.1." ⟨2025, 12, 20⟩ = some ⟨2026, 1, 3⟩ := by
  have h := claim_C9 "3.1." ⟨2025, 12, 20⟩ 3 1 (by decide) (by decide)
    (by decide) (by decide) (by decide) (by decide) (by decide)
  rw [h]
  decide

end UntisCal
